import Mathlib

/-!
Verification of the suggestion-matching core of
`pgsqltoolsservice/language/sqlautocomplete/autocomplete.py`.

Strings are embedded as `List Char`.  Python's `str.lower()` / `str.upper()`
are modelled on the ASCII range, which covers the identifier, keyword and
quote characters this feature manipulates.
-/

namespace AutoComplete

/-- ASCII lower-casing of one character (model of Python `str.lower()` per
char): code points 65–90 are `'A'`–`'Z'`. -/
def lowerChar (c : Char) : Char :=
  if 65 ≤ c.toNat ∧ c.toNat ≤ 90 then Char.ofNat (c.toNat + 32) else c

/-- ASCII upper-casing of one character (model of Python `str.upper()` and of
the server-side `upper()` in the `pg_get_keywords` query, per char): code
points 97–122 are `'a'`–`'z'`. -/
def upperChar (c : Char) : Char :=
  if 97 ≤ c.toNat ∧ c.toNat ≤ 122 then Char.ofNat (c.toNat - 32) else c

/-- Model of Python `str.lower()`. -/
def lowerStr (s : List Char) : List Char := s.map lowerChar

/-- Model of Python `str.upper()`. -/
def upperStr (s : List Char) : List Char := s.map upperChar

/-- ASCII whitespace recognised by Python `str.split()` with no argument. -/
def isSpaceChar (c : Char) : Bool :=
  c = ' ' ∨ c = '\t' ∨ c = '\n' ∨ c = '\r' ∨ c = '\x0b' ∨ c = '\x0c'

/-- Accumulator-based splitter behind `pySplit`; `acc` holds the current chunk
reversed. -/
def splitAux : List Char → List Char → List (List Char)
  | [], acc => if acc = [] then [] else [acc.reverse]
  | c :: cs, acc =>
    if isSpaceChar c then
      if acc = [] then splitAux cs [] else acc.reverse :: splitAux cs []
    else splitAux cs (c :: acc)

/-- Model of Python `str.split()` (no argument): split on whitespace runs,
producing no empty chunks. -/
def pySplit (s : List Char) : List (List Char) := splitAux s []

/-- First character class of `_NAME_PATTERN = re.compile(r'^[_a-z][_a-z0-9\$]*$')`. -/
def isNameStartChar (c : Char) : Bool :=
  c = '_' ∨ (97 ≤ c.toNat ∧ c.toNat ≤ 122)

/-- Tail character class of `_NAME_PATTERN` (digits are code points 48–57). -/
def isNameTailChar (c : Char) : Bool :=
  isNameStartChar c ∨ (48 ≤ c.toNat ∧ c.toNat ≤ 57) ∨ c = '$'

/-- The anchored pattern body `[_a-z][_a-z0-9$]*` against the whole string. -/
def namePatternCore : List Char → Bool
  | [] => false
  | c :: cs => isNameStartChar c && cs.all isNameTailChar

/-- `_NAME_PATTERN.match(name)` as a whole-string test: Python's `$` also
matches just before one trailing newline. -/
def nameMatch (s : List Char) : Bool :=
  namePatternCore s || (s.getLast? = some '\n' && namePatternCore s.dropLast)

/-- `Matcher.unescape_name`: strip the first and last character when both are
double quotes (`if name and name[0] == '"' and name[-1] == '"'`), otherwise
return the name unchanged. -/
def unescape_name (s : List Char) : List Char :=
  if s.head? = some '"' ∧ s.getLast? = some '"' then (s.drop 1).dropLast else s

/-- `Matcher.escape_name`: wrap the name in double quotes when it is non-empty
and either fails `_NAME_PATTERN` or its upper-cased form is a reserved word. -/
def escape_name (reserved : List (List Char)) (s : List Char) : List Char :=
  if s ≠ [] ∧ (¬ nameMatch s = true ∨ upperStr s ∈ reserved) then
    '"' :: s ++ ['"']
  else s

/-- `Matcher.init_keywords`: the executed query is
`SELECT upper(word) as word FROM pg_get_keywords()`, so each returned row is
the upper-cased keyword; every row is appended to `keywords` and
`reserved_words` collects `keyword.split()` chunks.  The embedding takes the
raw server keywords and composes the query's `upper()` with the split. -/
def initReservedWords (rows : List (List Char)) : List (List Char) :=
  (rows.map fun r => pySplit (upperStr r)).flatten

/-! ## The candidate matcher (`Matcher.find_matches`) -/

/-- First component of a strict/fuzzy sort key: either Python's
`-float('Infinity')` or a finite integer. -/
inductive ExtInt where
  | negInf : ExtInt
  | fin : Int → ExtInt
deriving DecidableEq, Repr

/-- Python `<` on the first sort-key component (`-inf` below every integer). -/
def extIntLt : ExtInt → ExtInt → Bool
  | .negInf, .negInf => false
  | .negInf, .fin _ => true
  | .fin _, .negInf => false
  | .fin a, .fin b => a < b

/-- Model of CPython `s.find(sub, 0, stop)`: the lowest index at which `sub`
occurs entirely inside the slice `s[0:stop]`, as an `Option` instead of `-1`. -/
def strFind (s sub : List Char) (stop : Nat) : Option Nat :=
  (List.range (min stop s.length + 1)).find? fun p =>
    decide (p + sub.length ≤ min stop s.length) && ((s.drop p).take sub.length == sub)

/-- The strict-mode `_match`: `item.lower().find(text, 0, match_end_limit)`
with `match_end_limit = len(text)`; on success the sort key is
`(-float('Infinity'), -match_point)`.  The item is lower-cased but *not*
unescaped in this mode. -/
def matchStrict (text item : List Char) : Option (ExtInt × Int) :=
  (strFind (lowerStr item) text text.length).map fun p => (ExtInt.negInf, -(p : Int))

/-- Behaviour of the lazy gaps in the fuzzy pattern
`re.compile('(' + '.*?'.join(map(re.escape, text)) + ')')`: consume `cs`
inside `s` allowing a lazy (shortest-first) gap before every character, and
return the length of the consumed prefix of `s`.  The pattern is compiled
with default flags — no `re.DOTALL` — so `.` does not match a newline: a gap
can never skip over `'\n'`, which acts as a barrier.  Backtracking of `.*?`
tries gap lengths in increasing order, which is exactly this
earliest-occurrence scan stopped at the first newline (taking the earliest
reachable occurrence is complete: any later reachable occurrence lies behind
only non-newline characters, so an embedding from it is also one from the
earliest). -/
def matchRest : List Char → List Char → Option Nat
  | [], _ => some 0
  | _ :: _, [] => none
  | c :: cs, d :: ds =>
    if c = d then (matchRest cs ds).map (· + 1)
    else if d = '\n' then none
    else (matchRest (c :: cs) ds).map (· + 1)

/-- Match of the fuzzy pattern anchored at the current position: the first
text character must match here (the pattern has no leading `.*?`), the rest
may be preceded by lazy gaps.  Returns the matched span length. -/
def matchHere : List Char → List Char → Option Nat
  | [], _ => some 0
  | _ :: _, [] => none
  | c :: cs, d :: ds => if c = d then (matchRest cs ds).map (· + 1) else none

/-- `re.search` driver: try the anchored match at each start position,
leftmost first; returns `(start, span length)`. -/
def searchAux (t : List Char) : List Char → Nat → Option (Nat × Nat)
  | s, q =>
    match matchHere t s with
    | some n => some (q, n)
    | none =>
      match s with
      | [] => none
      | _ :: ds => searchAux t ds (q + 1)

/-- `pat.search(...)` for the fuzzy pattern built from `t`. -/
def reSearch (t s : List Char) : Option (Nat × Nat) := searchAux t s 0

/-- The fuzzy-mode `_match`: `pat.search(self.unescape_name(item.lower()))`;
on success the sort key is `(-len(result.group()), -result.start())`. -/
def matchFuzzy (text item : List Char) : Option (ExtInt × Int) :=
  (reSearch text (unescape_name (lowerStr item))).map fun qn =>
    (ExtInt.fin (-(qn.2 : Int)), -(qn.1 : Int))

/-- Reference relation for the fuzzy claim: `GapSub cs s` holds when the
characters of `cs` appear in `s` in order, where before each character of
`cs` any characters other than a newline may be skipped (the DOTALL-free lazy
gap `.*?`), and anything may follow the last matched character. -/
inductive GapSub : List Char → List Char → Prop where
  | nil (s : List Char) : GapSub [] s
  | here {c : Char} {cs ds : List Char} : GapSub cs ds → GapSub (c :: cs) (c :: ds)
  | skip {c d : Char} {cs ds : List Char} : d ≠ '\n' → GapSub (c :: cs) ds →
      GapSub (c :: cs) (d :: ds)

/-- Reference relation: the fuzzy pattern matches anchored at the head of
`u` — the first character of the text matches `u`'s head exactly (the
pattern has no leading gap) and the rest embeds with newline-free gaps. -/
def Anchored : List Char → List Char → Prop
  | [], _ => True
  | _ :: _, [] => False
  | c :: cs, d :: ds => c = d ∧ GapSub cs ds

/-- `lexical_priority = tuple(-ord(c) for c in self.unescape_name(item)) + (1,)`. -/
def lexicalPriority (item : List Char) : List Int :=
  (unescape_name item).map (fun c => -(c.toNat : Int)) ++ [1]

/-- The full `priority` triple attached to a match:
`priority = sort_key, priority_func(item), lexical_priority`. -/
structure Priority where
  sortKey : ExtInt × Int
  prevalence : Int
  lexical : List Int
deriving DecidableEq, Repr

/-- Python `<` on `List Int` as tuple comparison (a strict prefix is smaller). -/
def listIntLt : List Int → List Int → Bool
  | [], [] => false
  | [], _ :: _ => true
  | _ :: _, [] => false
  | a :: as, b :: bs => if a < b then true else if b < a then false else listIntLt as bs

/-- Python `<` on the sort-key pair. -/
def sortKeyLt (a b : ExtInt × Int) : Bool :=
  if extIntLt a.1 b.1 then true
  else if extIntLt b.1 a.1 then false
  else a.2 < b.2

/-- Python `<` on the full priority triple. -/
def priorityLt (p q : Priority) : Bool :=
  if sortKeyLt p.sortKey q.sortKey then true
  else if sortKeyLt q.sortKey p.sortKey then false
  else if p.prevalence < q.prevalence then true
  else if q.prevalence < p.prevalence then false
  else listIntLt p.lexical q.lexical

/-- One returned `Match`: the completion item is built from the item text
(label and insert text are the item itself) plus the truncated meta detail,
paired with the priority.  The embedding keeps the item text and detail. -/
structure MatchRec where
  completion : List Char
  detail : Option (List Char)
  priority : Priority
deriving DecidableEq, Repr

/-- `if meta and len(meta) > 50: meta = meta[:47] + '...'`. -/
def truncateMeta : Option (List Char) → Option (List Char)
  | none => none
  | some m => if m.length > 50 then some (m.take 47 ++ ['.', '.', '.']) else some m

/-- Text preprocessing at the top of `find_matches`:
`text = script_file.get_text_in_range(text_range).lower()` (the extraction of
the partial text from the script file is external; the embedding receives the
partial text), then a leading double quote is stripped. -/
def processText (raw : List Char) : List Char :=
  let t := lowerStr raw
  if t.head? = some '"' then t.drop 1 else t

/-- The mode's `_match` function selected inside `find_matches`. -/
def modeMatch (fuzzy : Bool) (text item : List Char) : Option (ExtInt × Int) :=
  if fuzzy then matchFuzzy text item else matchStrict text item

/-- The per-item body of the `for item, meta in collection` loop: apply the
mode's `_match`; on success build the match record with the mode's priority
function applied to the raw item and the lexical priority of the unescaped
item.  The prevalence counters (`PrevalenceCounter.name_count` /
`keyword_count`) are modelled from the spec — `prioritization.py` is not among
the sources — as functions from a name to its recorded usage count. -/
def matchOne (fuzzy : Bool) (nameCount keywordCount : List Char → Int)
    (text : List Char) (pair : List Char × Option (List Char)) : Option MatchRec :=
  match modeMatch fuzzy text pair.1 with
  | none => none
  | some sk =>
    some ⟨pair.1, truncateMeta pair.2,
      ⟨sk, (if fuzzy then nameCount else keywordCount) pair.1, lexicalPriority pair.1⟩⟩

/-- `Matcher.find_matches` on an `(item, meta)` collection: lower the text and
strip a leading quote, pick the mode, and append a match record for every
accepted item, in collection order (the source builds `matches` by `append`
and returns it — no sorting step). -/
def find_matches (fuzzy : Bool) (nameCount keywordCount : List Char → Int)
    (rawText : List Char) (pairs : List (List Char × Option (List Char))) :
    List MatchRec :=
  pairs.filterMap (matchOne fuzzy nameCount keywordCount (processText rawText))

/-- The strict-mode call as every suggestion handler makes it: a plain
collection is zipped with `itertools.repeat(meta)` inside `find_matches`. -/
def findMatchesStrict (nameCount keywordCount : List Char → Int)
    (rawText : List Char) (collection : List (List Char))
    (meta : Option (List Char)) : List MatchRec :=
  find_matches false nameCount keywordCount rawText (collection.map fun i => (i, meta))

/-! ## The suggestion handlers (`SuggestionMatcher`) -/

/-- `word_before_cursor.startswith('pg_')` and the candidate-side test. -/
def startsWithPg (s : List Char) : Bool := s.take 3 == ['p', 'g', '_']

/-- Python truthiness of the optional schema filter (`not suggestion.schema`
is true for `None` and for the empty string). -/
def optFalsy : Option (List Char) → Bool
  | none => true
  | some s => s == []

/-- `SuggestionMatcher.get_table_matches`: the pool comes from
`populate_schema_objects` (a catalog query, received here as a parameter);
unless a schema filter is given or the word starts with `pg_`, candidates
starting with `pg_` are dropped; then the strict matcher runs. -/
def get_table_matches (nameCount keywordCount : List Char → Int)
    (schema : Option (List Char)) (word : List Char)
    (tables : List (List Char)) : List MatchRec :=
  let tables :=
    if optFalsy schema && !(startsWithPg word) then
      tables.filter fun t => !(startsWithPg t)
    else tables
  findMatchesStrict nameCount keywordCount word tables (some ['t', 'a', 'b', 'l', 'e'])

/-- `SuggestionMatcher.get_view_matches`: same shape as the table handler. -/
def get_view_matches (nameCount keywordCount : List Char → Int)
    (schema : Option (List Char)) (word : List Char)
    (views : List (List Char)) : List MatchRec :=
  let views :=
    if optFalsy schema && !(startsWithPg word) then
      views.filter fun v => !(startsWithPg v)
    else views
  findMatchesStrict nameCount keywordCount word views (some ['v', 'i', 'e', 'w'])

/-- `SuggestionMatcher.get_datatype_matches`: the populated pool is passed to
the strict matcher directly — this handler performs no `pg_` filtering. -/
def get_datatype_matches (nameCount keywordCount : List Char → Int)
    (_schema : Option (List Char)) (word : List Char)
    (types : List (List Char)) : List MatchRec :=
  findMatchesStrict nameCount keywordCount word types
    (some ['d', 'a', 't', 'a', 't', 'y', 'p', 'e'])

/-- Modelled from the spec: `populate_scoped_cols` is called by
`get_column_matches` but is absent from the sources; per §4.4 it gathers the
columns scoped to all listed tables, i.e. the concatenation of the listed
tables' column lists in order. -/
def populate_scoped_cols (tables : List (List (List Char))) : List (List Char) :=
  tables.flatten

/-- `Counter(l).items()` key order: distinct elements in first-occurrence
order. -/
def firstOccur (l : List (List Char)) : List (List Char) :=
  l.foldl (fun acc x => if x ∈ acc then acc else acc ++ [x]) []

/-- The `drop_unique` filter of `get_column_matches`:
`[col for (col, count) in Counter(scoped_cols).items() if count > 1 and col != '*']`. -/
def uniqueColumnFilter (pool : List (List Char)) : List (List Char) :=
  (firstOccur pool).filter fun col => decide (pool.count col > 1) && col ≠ ['*']

/-- `SuggestionMatcher.get_column_matches`: gather the scoped columns, apply
the `drop_unique` filter when the flag is set, and run the strict matcher. -/
def get_column_matches (nameCount keywordCount : List Char → Int)
    (tables : List (List (List Char))) (dropUnique : Bool)
    (word : List Char) : List MatchRec :=
  let cols := populate_scoped_cols tables
  let cols := if dropUnique then uniqueColumnFilter cols else cols
  findMatchesStrict nameCount keywordCount word cols
    (some ['c', 'o', 'l', 'u', 'm', 'n'])




/-! ## Helper lemmas -/

theorem toNat_ofNat_of_lt {n : Nat} (h : n < 55296) : (Char.ofNat n).toNat = n := by
  have hv : n.isValidChar := Or.inl h
  rw [Char.ofNat, dif_pos hv]
  simp [Char.ofNatAux, Char.toNat, UInt32.toNat]

theorem char_toNat_inj {c d : Char} (h : c.toNat = d.toNat) : c = d := by
  have h2 := congrArg Char.ofNat h
  rwa [Char.ofNat_toNat, Char.ofNat_toNat] at h2

theorem upperChar_upperChar (c : Char) : upperChar (upperChar c) = upperChar c := by
  by_cases h : 97 ≤ c.toNat ∧ c.toNat ≤ 122
  · simp only [upperChar, if_pos h]
    have ht : (Char.ofNat (c.toNat - 32)).toNat = c.toNat - 32 :=
      toNat_ofNat_of_lt (by omega)
    rw [if_neg (by rw [ht]; omega)]
  · have hc : upperChar c = c := by simp only [upperChar, if_neg h]
    simp only [hc]

theorem splitAux_mem :
    ∀ (s acc w : List Char), w ∈ splitAux s acc →
      w ≠ [] ∧ ∀ c ∈ w, c ∈ s ∨ c ∈ acc := by
  intro s
  induction s with
  | nil =>
    intro acc w hw
    simp only [splitAux] at hw
    by_cases ha : acc = []
    · rw [if_pos ha] at hw
      cases hw
    · rw [if_neg ha] at hw
      rcases List.mem_singleton.mp hw with rfl
      exact ⟨by simpa using ha, fun c hc => Or.inr (List.mem_reverse.mp hc)⟩
  | cons d ds ih =>
    intro acc w hw
    simp only [splitAux] at hw
    by_cases hsp : isSpaceChar d = true
    · rw [if_pos hsp] at hw
      by_cases ha : acc = []
      · rw [if_pos ha] at hw
        obtain ⟨hne, hc⟩ := ih [] w hw
        refine ⟨hne, fun c hcw => ?_⟩
        rcases hc c hcw with h | h
        · exact Or.inl (List.mem_cons_of_mem _ h)
        · cases h
      · rw [if_neg ha] at hw
        rcases List.mem_cons.mp hw with rfl | hw'
        · exact ⟨by simpa using ha, fun c hcw => Or.inr (List.mem_reverse.mp hcw)⟩
        · obtain ⟨hne, hc⟩ := ih [] w hw'
          refine ⟨hne, fun c hcw => ?_⟩
          rcases hc c hcw with h | h
          · exact Or.inl (List.mem_cons_of_mem _ h)
          · cases h
    · rw [if_neg hsp] at hw
      obtain ⟨hne, hc⟩ := ih (d :: acc) w hw
      refine ⟨hne, fun c hcw => ?_⟩
      rcases hc c hcw with h | h
      · exact Or.inl (List.mem_cons_of_mem _ h)
      · rcases List.mem_cons.mp h with rfl | h'
        · exact Or.inl (List.mem_cons_self _ _)
        · exact Or.inr h'

theorem mem_initReservedWords {rows : List (List Char)} {w : List Char}
    (hw : w ∈ initReservedWords rows) : w ≠ [] ∧ upperStr w = w := by
  rw [initReservedWords, List.mem_flatten] at hw
  obtain ⟨l, hl, hwl⟩ := hw
  rw [List.mem_map] at hl
  obtain ⟨r, _, rfl⟩ := hl
  obtain ⟨hne, hchars⟩ := splitAux_mem (upperStr r) [] w hwl
  refine ⟨hne, ?_⟩
  have hfix : ∀ c ∈ w, upperChar c = c := by
    intro c hc
    rcases hchars c hc with h | h
    · rw [upperStr, List.mem_map] at h
      obtain ⟨x, _, rfl⟩ := h
      exact upperChar_upperChar x
    · cases h
  calc upperStr w = w.map id := List.map_congr_left hfix
    _ = w := List.map_id w

theorem nameMatch_headStart {c : Char} {cs : List Char}
    (h : nameMatch (c :: cs) = true) : isNameStartChar c = true := by
  rw [nameMatch, Bool.or_eq_true] at h
  rcases h with h | h
  · rw [namePatternCore, Bool.and_eq_true] at h
    exact h.1
  · rw [Bool.and_eq_true] at h
    obtain ⟨_, h2⟩ := h
    cases cs with
    | nil => simp [List.dropLast, namePatternCore] at h2
    | cons d ds =>
      rw [show (c :: d :: ds).dropLast = c :: (d :: ds).dropLast from rfl,
        namePatternCore, Bool.and_eq_true] at h2
      exact h2.1

theorem isNameStartChar_ne_quote {c : Char} (h : isNameStartChar c = true) :
    c ≠ '"' := by
  intro hc
  subst hc
  simp [isNameStartChar] at h

theorem unescape_of_headStart {c : Char} {cs : List Char}
    (h : isNameStartChar c = true) : unescape_name (c :: cs) = c :: cs := by
  rw [unescape_name, if_neg]
  intro hq
  exact isNameStartChar_ne_quote h (by simpa using hq.1)

theorem unescape_quoted (s : List Char) :
    unescape_name ('"' :: s ++ ['"']) = s := by
  rw [unescape_name, if_pos]
  · show (('"' :: s ++ ['"']).drop 1).dropLast = s
    rw [show ('"' :: s ++ ['"']).drop 1 = s ++ ['"'] from rfl]
    exact List.dropLast_concat
  · constructor
    · rfl
    · rw [show ('"' :: s ++ ['"']) = ('"' :: s) ++ ['"'] from rfl]
      exact List.getLast?_concat _

/-! ## Claims C9, C10, C4 -/

/-- C9: `unescape_name` never fails: it strips exactly the first and last
character when both are double quotes, and returns every other input — in
particular any string that is not fully quoted, such as a lone leading quote
with no matching trailing quote — unchanged. -/
theorem claim_C9_unescape_total (s : List Char) :
    (s.head? = some '"' ∧ s.getLast? = some '"' →
      unescape_name s = (s.drop 1).dropLast) ∧
    (¬(s.head? = some '"' ∧ s.getLast? = some '"') → unescape_name s = s) := by
  constructor
  · intro h
    rw [unescape_name, if_pos h]
  · intro h
    rw [unescape_name, if_neg h]

theorem claim_C9_unescape_total_witness :
    unescape_name ['"', 'x'] = ['"', 'x'] :=
  (claim_C9_unescape_total ['"', 'x']).2 (by decide)

/-- C10: `unescape_name` on the one-character string `"` returns the empty
string (the single character serves as both opening and closing quote), and
`escape_name` on the empty string returns it unquoted, for any reserved-word
set. -/
theorem claim_C10_edge_cases :
    unescape_name ['"'] = [] ∧
    ∀ reserved : List (List Char), escape_name reserved [] = [] := by
  refine ⟨by decide, fun reserved => ?_⟩
  rw [escape_name, if_neg]
  intro h
  exact h.1 rfl

/-- C4: over any server keyword list: (a) a name matching
`^[_a-z][_a-z0-9$]*$` whose upper-cased form is not reserved is returned
unchanged by `escape_name` and round-trips through `unescape_name`;
(b) any name without an embedded double quote round-trips through
escape-then-unescape; (c) every reserved word is escaped to a double-quoted
form. -/
theorem claim_C4_escape_roundtrip (rows : List (List Char)) :
    (∀ name : List Char, namePatternCore name = true →
      upperStr name ∉ initReservedWords rows →
      escape_name (initReservedWords rows) name = name ∧
      unescape_name (escape_name (initReservedWords rows) name) = name) ∧
    (∀ name : List Char, '"' ∉ name →
      unescape_name (escape_name (initReservedWords rows) name) = name) ∧
    (∀ w ∈ initReservedWords rows,
      escape_name (initReservedWords rows) w = '"' :: w ++ ['"']) := by
  refine ⟨?_, ?_, ?_⟩
  · intro name hpat hres
    have hesc : escape_name (initReservedWords rows) name = name := by
      rw [escape_name, if_neg]
      intro h
      rcases h.2 with h2 | h2
      · exact h2 (by rw [nameMatch, hpat, Bool.true_or])
      · exact hres h2
    refine ⟨hesc, ?_⟩
    rw [hesc]
    cases name with
    | nil => simp [namePatternCore] at hpat
    | cons c cs =>
      rw [namePatternCore, Bool.and_eq_true] at hpat
      exact unescape_of_headStart hpat.1
  · intro name _
    by_cases h : name ≠ [] ∧ (¬ nameMatch name = true ∨ upperStr name ∈ initReservedWords rows)
    · rw [escape_name, if_pos h]
      exact unescape_quoted name
    · rw [escape_name, if_neg h]
      push_neg at h
      by_cases hnil : name = []
      · subst hnil
        decide
      · have hm : nameMatch name = true := (h hnil).1
        cases name with
        | nil => exact absurd rfl hnil
        | cons c cs => exact unescape_of_headStart (nameMatch_headStart hm)
  · intro w hw
    obtain ⟨hne, hup⟩ := mem_initReservedWords hw
    rw [escape_name, if_pos ⟨hne, Or.inr (by rw [hup]; exact hw)⟩]

theorem claim_C4_escape_roundtrip_witness :
    escape_name (initReservedWords [['s', 'e', 'l', 'e', 'c', 't']])
        ['f', 'o', 'o'] = ['f', 'o', 'o'] ∧
    unescape_name (escape_name (initReservedWords [['s', 'e', 'l', 'e', 'c', 't']])
        ['a', ' ', 'b']) = ['a', ' ', 'b'] ∧
    escape_name (initReservedWords [['s', 'e', 'l', 'e', 'c', 't']])
        ['S', 'E', 'L', 'E', 'C', 'T'] =
      '"' :: ['S', 'E', 'L', 'E', 'C', 'T'] ++ ['"'] :=
  ⟨((claim_C4_escape_roundtrip [['s', 'e', 'l', 'e', 'c', 't']]).1
      ['f', 'o', 'o'] (by decide) (by decide)).1,
   (claim_C4_escape_roundtrip [['s', 'e', 'l', 'e', 'c', 't']]).2.1
      ['a', ' ', 'b'] (by decide),
   (claim_C4_escape_roundtrip [['s', 'e', 'l', 'e', 'c', 't']]).2.2
      ['S', 'E', 'L', 'E', 'C', 'T'] (by decide)⟩


/-! ## `find_matches` output shape (claim C3) -/

theorem find_matches_completions (fuzzy : Bool) (nc kc : List Char → Int)
    (rawText : List Char) (pairs : List (List Char × Option (List Char))) :
    (find_matches fuzzy nc kc rawText pairs).map MatchRec.completion
      = (pairs.map Prod.fst).filter
          (fun item => (modeMatch fuzzy (processText rawText) item).isSome) := by
  induction pairs with
  | nil => rfl
  | cons p ps ih =>
    cases h : modeMatch fuzzy (processText rawText) p.1 with
    | none =>
      simp only [find_matches, List.filterMap_cons, List.map_cons, List.filter_cons,
        matchOne, h, Option.isSome_none, Bool.false_eq_true, if_false]
      exact ih
    | some sk =>
      simp only [find_matches, List.filterMap_cons, List.map_cons, List.filter_cons,
        matchOne, h, Option.isSome_some, if_true, List.map_cons]
      exact congrArg (List.cons p.1) ih

theorem mem_find_matches {fuzzy : Bool} {nc kc : List Char → Int}
    {raw : List Char} {pairs : List (List Char × Option (List Char))}
    {m : MatchRec} (hm : m ∈ find_matches fuzzy nc kc raw pairs) :
    m.completion ∈ pairs.map Prod.fst ∧
    modeMatch fuzzy (processText raw) m.completion = some m.priority.sortKey ∧
    m.priority.prevalence = (if fuzzy then nc else kc) m.completion ∧
    m.priority.lexical = lexicalPriority m.completion := by
  rw [find_matches, List.mem_filterMap] at hm
  obtain ⟨a, ha, hone⟩ := hm
  rw [matchOne] at hone
  cases h : modeMatch fuzzy (processText raw) a.1 with
  | none =>
    rw [h] at hone
    cases hone
  | some sk =>
    rw [h] at hone
    cases hone
    exact ⟨List.mem_map_of_mem Prod.fst ha, h, rfl, rfl⟩

/-- C3 (amended): the sequence returned by the matcher, and hence by each
dispatcher handler, consists of exactly the candidates accepted by the
mode's `_match` — non-matching candidates dropped — in the order of the
candidate pool; no sorting by the ordering key is performed. -/
theorem claim_C3_matches_exact_pool_order (fuzzy : Bool)
    (nc kc : List Char → Int) (rawText : List Char)
    (pairs : List (List Char × Option (List Char))) :
    (find_matches fuzzy nc kc rawText pairs).map MatchRec.completion
      = (pairs.map Prod.fst).filter
          (fun item => (modeMatch fuzzy (processText rawText) item).isSome) :=
  find_matches_completions fuzzy nc kc rawText pairs

/-- C3 counterexample: with the pool `["aa", "ab"]` and partial text `"a"`
(zero prevalence counters), the returned sequence is in pool order and its
second record's full ordering key is strictly below the first one's, so the
output is not sorted ascending by the full ordering key. -/
theorem claim_C3_counterexample :
    findMatchesStrict (fun _ => 0) (fun _ => 0) ['a'] [['a', 'a'], ['a', 'b']] none =
      [⟨['a', 'a'], none, ⟨(ExtInt.negInf, 0), 0, [-97, -97, 1]⟩⟩,
       ⟨['a', 'b'], none, ⟨(ExtInt.negInf, 0), 0, [-97, -98, 1]⟩⟩] ∧
    priorityLt ⟨(ExtInt.negInf, 0), 0, [-97, -98, 1]⟩
      ⟨(ExtInt.negInf, 0), 0, [-97, -97, 1]⟩ = true := by decide

/-! ## Strict-mode matching (claim C1) -/

theorem strFind_self_stop (s sub : List Char) :
    strFind s sub sub.length =
      if s.take sub.length = sub then some 0 else none := by
  by_cases htake : s.take sub.length = sub
  · rw [if_pos htake]
    have hlen : sub.length ≤ s.length := by
      have h1 := congrArg List.length htake
      rw [List.length_take] at h1
      omega
    have hmin : min sub.length s.length = sub.length := by omega
    rw [strFind, hmin, List.range_succ_eq_map, List.find?_cons_of_pos]
    simp [htake]
  · rw [if_neg htake]
    rw [strFind, List.find?_eq_none]
    intro p _
    rw [Bool.not_eq_true, Bool.and_eq_false_iff]
    by_cases hp : p + sub.length ≤ min sub.length s.length
    · right
      have hp0 : p = 0 := by omega
      have hlen : sub.length ≤ s.length := by omega
      subst hp0
      rw [List.drop_zero]
      exact beq_eq_false_iff_ne.mpr htake
    · left
      exact decide_eq_false hp

/-- C1 (amended): strict mode accepts `c` iff the partial text `t` is a
prefix of the lower-cased `c` — equivalently, iff lower-cased `c` contains
`t` within its first `len(t)` characters; the candidate is *not* unescaped
in this mode, and substring occurrences past offset 0 are not found.  On
acceptance the primary ordering-key component is
`(negative infinity, -match_offset)` with `match_offset = 0`. -/
theorem claim_C1_strict_is_prefix_match (t c : List Char) :
    ((matchStrict t c).isSome ↔ (lowerStr c).take t.length = t) ∧
    ((lowerStr c).take t.length = t →
      matchStrict t c = some (ExtInt.negInf, 0)) := by
  rw [matchStrict, strFind_self_stop]
  by_cases h : (lowerStr c).take t.length = t
  · rw [if_pos h]
    refine ⟨by simp [h], fun _ => ?_⟩
    simp
  · rw [if_neg h]
    exact ⟨by simp [h], fun hc => absurd hc h⟩

theorem claim_C1_strict_is_prefix_match_witness :
    matchStrict ['a'] ['A', 'b'] = some (ExtInt.negInf, 0) :=
  (claim_C1_strict_is_prefix_match ['a'] ['A', 'b']).2 (by decide)

/-- C1 counterexample: the claim's substring reading fails — `"ab"` contains
`"b"` as a contiguous substring (at offset 1) yet strict mode rejects it —
and the claim's unescaping reading fails — the unescaped lower-cased form of
`"b"` (quoted) is `b`, which contains the text `b`, yet strict mode rejects
the quoted candidate. -/
theorem claim_C1_counterexample :
    ((unescape_name (lowerStr ['a', 'b'])).drop 1).take 1 = ['b'] ∧
    matchStrict ['b'] ['a', 'b'] = none ∧
    unescape_name (lowerStr ['"', 'b', '"']) = ['b'] ∧
    matchStrict ['b'] ['"', 'b', '"'] = none := by decide

/-! ## Fuzzy-mode matching (claim C2) -/

theorem gapSub_cons_of {cs ds : List Char} {d : Char} (hne : d ≠ '\n')
    (h : GapSub cs ds) : GapSub cs (d :: ds) := by
  cases cs with
  | nil => exact GapSub.nil _
  | cons c cs' => exact GapSub.skip hne h

theorem gapSub_drop_head {c : Char} {cs : List Char} (hne : c ≠ '\n') :
    ∀ {ds : List Char}, GapSub (c :: cs) ds → GapSub cs ds := by
  intro ds
  induction ds with
  | nil =>
    intro h
    cases h
  | cons d ds' ih =>
    intro h
    cases h with
    | here h' => exact gapSub_cons_of hne h'
    | skip hd h' => exact gapSub_cons_of hd (ih h')

theorem gapSub_append {cs v : List Char} (w : List Char) (h : GapSub cs v) :
    GapSub cs (v ++ w) := by
  induction h with
  | nil s => exact GapSub.nil _
  | here _ ih => exact GapSub.here ih
  | skip hd _ ih => exact GapSub.skip hd ih

theorem anchored_append {t v : List Char} (w : List Char) (h : Anchored t v) :
    Anchored t (v ++ w) := by
  cases t with
  | nil => exact trivial
  | cons c cs =>
    cases v with
    | nil => exact absurd h not_false
    | cons d ds =>
      obtain ⟨h1, h2⟩ := h
      exact ⟨h1, gapSub_append w h2⟩

theorem anchored_of_take {t u : List Char} {n : Nat}
    (h : Anchored t (u.take n)) : Anchored t u := by
  have h2 := anchored_append (u.drop n) h
  rwa [List.take_append_drop] at h2

theorem matchRest_spec :
    ∀ (s cs : List Char),
      (matchRest cs s = none → ¬ GapSub cs s) ∧
      (∀ n, matchRest cs s = some n →
        GapSub cs (s.take n) ∧ n ≤ s.length ∧
        ∀ m, m < n → ¬ GapSub cs (s.take m)) := by
  intro s
  induction s with
  | nil =>
    intro cs
    cases cs with
    | nil =>
      constructor
      · intro h
        simp only [matchRest] at h
        cases h
      · intro n hn
        simp only [matchRest] at hn
        cases hn
        exact ⟨GapSub.nil _, Nat.le_refl 0, fun m hm => absurd hm (Nat.not_lt_zero m)⟩
    | cons c cs' =>
      constructor
      · intro _ hs
        cases hs
      · intro n hn
        simp only [matchRest] at hn
        cases hn
  | cons d ds ih =>
    intro cs
    cases cs with
    | nil =>
      constructor
      · intro h
        simp only [matchRest] at h
        cases h
      · intro n hn
        simp only [matchRest] at hn
        cases hn
        exact ⟨GapSub.nil _, Nat.zero_le _, fun m hm => absurd hm (Nat.not_lt_zero m)⟩
    | cons c cs' =>
      by_cases hcd : c = d
      · subst hcd
        constructor
        · intro h hs
          simp only [matchRest, if_pos rfl] at h
          cases hrec : matchRest cs' ds with
          | none =>
            cases hs with
            | here h2 => exact (ih cs').1 hrec h2
            | skip hne h2 => exact (ih cs').1 hrec (gapSub_drop_head hne h2)
          | some m => rw [hrec, Option.map_some'] at h; cases h
        · intro n hn
          simp only [matchRest, if_pos rfl] at hn
          cases hrec : matchRest cs' ds with
          | none => rw [hrec] at hn; cases hn
          | some m =>
            rw [hrec, Option.map_some'] at hn
            cases hn
            obtain ⟨hsub, hle, hmin⟩ := (ih cs').2 m hrec
            refine ⟨?_, by simpa using Nat.succ_le_succ hle, ?_⟩
            · rw [List.take_succ_cons]
              exact GapSub.here hsub
            · intro m' hm' hbad
              cases m' with
              | zero =>
                rw [List.take_zero] at hbad
                cases hbad
              | succ j =>
                rw [List.take_succ_cons] at hbad
                cases hbad with
                | here h2 => exact hmin j (Nat.lt_of_succ_lt_succ hm') h2
                | skip hne h2 =>
                  exact hmin j (Nat.lt_of_succ_lt_succ hm') (gapSub_drop_head hne h2)
      · by_cases hdn : d = '\n'
        · subst hdn
          constructor
          · intro _ hs
            cases hs with
            | here _ => exact hcd rfl
            | skip hne _ => exact hne rfl
          · intro n hn
            simp only [matchRest, if_neg hcd, if_pos rfl] at hn
            cases hn
        · constructor
          · intro h hs
            simp only [matchRest, if_neg hcd, if_neg hdn] at h
            cases hrec : matchRest (c :: cs') ds with
            | none =>
              cases hs with
              | here _ => exact hcd rfl
              | skip _ h2 => exact (ih (c :: cs')).1 hrec h2
            | some m => rw [hrec, Option.map_some'] at h; cases h
          · intro n hn
            simp only [matchRest, if_neg hcd, if_neg hdn] at hn
            cases hrec : matchRest (c :: cs') ds with
            | none => rw [hrec] at hn; cases hn
            | some m =>
              rw [hrec, Option.map_some'] at hn
              cases hn
              obtain ⟨hsub, hle, hmin⟩ := (ih (c :: cs')).2 m hrec
              refine ⟨?_, by simpa using Nat.succ_le_succ hle, ?_⟩
              · rw [List.take_succ_cons]
                exact GapSub.skip hdn hsub
              · intro m' hm' hbad
                cases m' with
                | zero =>
                  rw [List.take_zero] at hbad
                  cases hbad
                | succ j =>
                  rw [List.take_succ_cons] at hbad
                  cases hbad with
                  | here _ => exact hcd rfl
                  | skip _ h2 => exact hmin j (Nat.lt_of_succ_lt_succ hm') h2

theorem matchHere_spec {c : Char} {cs : List Char} (s : List Char) :
    (matchHere (c :: cs) s = none → ¬ Anchored (c :: cs) s) ∧
    (∀ n, matchHere (c :: cs) s = some n →
      Anchored (c :: cs) (s.take n) ∧ n ≤ s.length ∧
      ∀ m, m < n → ¬ Anchored (c :: cs) (s.take m)) := by
  cases s with
  | nil =>
    constructor
    · intro _ hal
      exact hal
    · intro n hn
      simp only [matchHere] at hn
      cases hn
  | cons d ds =>
    by_cases hcd : c = d
    · subst hcd
      constructor
      · intro h hal
        simp only [matchHere, if_pos rfl] at h
        obtain ⟨_, hal2⟩ := hal
        cases hrec : matchRest cs ds with
        | none => exact (matchRest_spec ds cs).1 hrec hal2
        | some m => rw [hrec, Option.map_some'] at h; cases h
      · intro n hn
        simp only [matchHere, if_pos rfl] at hn
        cases hrec : matchRest cs ds with
        | none => rw [hrec] at hn; cases hn
        | some m =>
          rw [hrec, Option.map_some'] at hn
          cases hn
          obtain ⟨hsub, hle, hmin⟩ := (matchRest_spec ds cs).2 m hrec
          refine ⟨?_, by simpa using Nat.succ_le_succ hle, ?_⟩
          · rw [List.take_succ_cons]
            exact ⟨rfl, hsub⟩
          · intro m' hm' hbad
            cases m' with
            | zero =>
              rw [List.take_zero] at hbad
              exact hbad
            | succ j =>
              rw [List.take_succ_cons] at hbad
              obtain ⟨_, hb2⟩ := hbad
              exact hmin j (Nat.lt_of_succ_lt_succ hm') hb2
    · constructor
      · intro _ hal
        obtain ⟨hal1, _⟩ := hal
        exact hcd hal1
      · intro n hn
        simp only [matchHere, if_neg hcd] at hn
        cases hn

theorem searchAux_spec (t : List Char) :
    ∀ (s : List Char) (q : Nat),
      (searchAux t s q = none → ∀ j, matchHere t (s.drop j) = none) ∧
      (∀ r n, searchAux t s q = some (r, n) →
        q ≤ r ∧ matchHere t (s.drop (r - q)) = some n ∧
        ∀ j, j < r - q → matchHere t (s.drop j) = none) := by
  intro s
  induction s with
  | nil =>
    intro q
    constructor
    · intro h j
      rw [List.drop_nil]
      cases hm : matchHere t [] with
      | none => rfl
      | some n =>
        rw [searchAux, hm] at h
        cases h
    · intro r n h
      cases hm : matchHere t [] with
      | none =>
        rw [searchAux, hm] at h
        cases h
      | some n' =>
        rw [searchAux, hm] at h
        cases h
        refine ⟨Nat.le_refl _, ?_, ?_⟩
        · rw [Nat.sub_self, List.drop_nil]
          exact hm
        · intro j hj
          rw [Nat.sub_self] at hj
          exact absurd hj (Nat.not_lt_zero j)
  | cons d ds ih =>
    intro q
    cases hm : matchHere t (d :: ds) with
    | some n' =>
      constructor
      · intro h
        rw [searchAux, hm] at h
        cases h
      · intro r n h
        rw [searchAux, hm] at h
        cases h
        refine ⟨Nat.le_refl _, ?_, ?_⟩
        · rw [Nat.sub_self, List.drop_zero]
          exact hm
        · intro j hj
          rw [Nat.sub_self] at hj
          exact absurd hj (Nat.not_lt_zero j)
    | none =>
      constructor
      · intro h j
        rw [searchAux, hm] at h
        cases j with
        | zero =>
          rw [List.drop_zero]
          exact hm
        | succ j' =>
          rw [List.drop_succ_cons]
          exact ((ih (q + 1)).1 h) j'
      · intro r n h
        rw [searchAux, hm] at h
        obtain ⟨hqr, hmh, hmin⟩ := (ih (q + 1)).2 r n h
        refine ⟨Nat.le_of_succ_le hqr, ?_, ?_⟩
        · have heq : r - q = (r - (q + 1)) + 1 := by omega
          rw [heq, List.drop_succ_cons]
          exact hmh
        · intro j hj
          cases j with
          | zero =>
            rw [List.drop_zero]
            exact hm
          | succ j' =>
            rw [List.drop_succ_cons]
            exact hmin j' (by omega)

/-- C2 (amended): fuzzy mode accepts `c` iff the characters of the non-empty
partial text `t` appear, in the same relative order, in the unescaped
lower-cased form of `c` such that the gaps between consecutive matched
characters contain no newline (the pattern is compiled without `re.DOTALL`,
so the lazy `.*?` gap cannot cross `'\n'`); plain subsequence containment is
not sufficient (see the counterexample).  The selected span is anchored at
the leftmost feasible start position and is the shortest such span at that
start, and the primary ordering-key component is
`(-span_length, -span_start)`. -/
theorem claim_C2_fuzzy_subsequence (t c : List Char) (ht : t ≠ []) :
    ((matchFuzzy t c).isSome ↔
      ∃ q, Anchored t ((unescape_name (lowerStr c)).drop q)) ∧
    (∀ q n, reSearch t (unescape_name (lowerStr c)) = some (q, n) →
      matchFuzzy t c = some (ExtInt.fin (-(n : Int)), -(q : Int)) ∧
      Anchored t (((unescape_name (lowerStr c)).drop q).take n) ∧
      (∀ m, m < n →
        ¬ Anchored t (((unescape_name (lowerStr c)).drop q).take m)) ∧
      (∀ j, j < q → ¬ Anchored t ((unescape_name (lowerStr c)).drop j))) := by
  cases t with
  | nil => exact absurd rfl ht
  | cons c0 cs0 =>
    set s := unescape_name (lowerStr c) with hs
    constructor
    · constructor
      · intro hsome
        rw [matchFuzzy, ← hs] at hsome
        cases hr : reSearch (c0 :: cs0) s with
        | none =>
          rw [hr] at hsome
          simp at hsome
        | some qn =>
          obtain ⟨q, n⟩ := qn
          obtain ⟨_, hmh, _⟩ := (searchAux_spec (c0 :: cs0) s 0).2 q n hr
          obtain ⟨hanch, _, _⟩ := (matchHere_spec (s.drop (q - 0))).2 n hmh
          exact ⟨q - 0, anchored_of_take hanch⟩
      · rintro ⟨q, hq⟩
        rw [matchFuzzy, ← hs]
        cases hr : reSearch (c0 :: cs0) s with
        | some qn => rfl
        | none =>
          have hnone := ((searchAux_spec (c0 :: cs0) s 0).1 hr) q
          exact absurd hq ((matchHere_spec (s.drop q)).1 hnone)
    · intro q n hr
      obtain ⟨_, hmh, hminpos⟩ := (searchAux_spec (c0 :: cs0) s 0).2 q n hr
      rw [Nat.sub_zero] at hmh hminpos
      obtain ⟨hanch, _, hminlen⟩ := (matchHere_spec (s.drop q)).2 n hmh
      refine ⟨?_, hanch, hminlen, ?_⟩
      · rw [matchFuzzy, ← hs, hr, Option.map_some']
      · intro j hj hal
        exact (matchHere_spec (s.drop j)).1 (hminpos j hj) hal

theorem claim_C2_fuzzy_subsequence_witness :
    matchFuzzy ['a', 'b'] ['x', 'a', 'x', 'b'] =
      some (ExtInt.fin (-3), -1) :=
  ((claim_C2_fuzzy_subsequence ['a', 'b'] ['x', 'a', 'x', 'b']
      (by decide)).2 1 3 (by decide)).1

/-- C2 counterexample: `ab` is a subsequence of `a\nb` (every character of
the text appears in the candidate in the same relative order), and the
candidate is unchanged by lower-casing and unescaping, yet the fuzzy matcher
rejects it: the pattern `(a.*?b)` is compiled without `re.DOTALL`, so the
lazy gap cannot cross the newline. -/
theorem claim_C2_counterexample :
    List.Sublist ['a', 'b'] (unescape_name (lowerStr ['a', '\n', 'b'])) ∧
    matchFuzzy ['a', 'b'] ['a', '\n', 'b'] = none := by decide

/-! ## pg_ suppression (claim C5) -/

theorem modeMatch_false (t i : List Char) : modeMatch false t i = matchStrict t i := rfl

theorem mem_strict_collection {nc kc : List Char → Int} {word : List Char}
    {coll : List (List Char)} {meta : Option (List Char)} {m : MatchRec}
    (hm : m ∈ findMatchesStrict nc kc word coll meta) : m.completion ∈ coll := by
  rw [findMatchesStrict] at hm
  have h := (mem_find_matches hm).1
  rw [List.map_map] at h
  have hid : (Prod.fst ∘ fun i : List Char => (i, meta)) = fun i : List Char => i := rfl
  rw [hid, List.map_id'] at h
  exact h

/-- C5 (amended): for the Table and View kinds, when the schema filter is
absent (or empty) and the partial text does not start with `pg_`, every
candidate name starting with `pg_` is excluded from the returned results,
and when the partial text starts with `pg_` the pool is passed through with
no exclusion; the Datatype handler applies no `pg_` suppression at all (see
the counterexample), and the Schema handler's guard tests only the text —
its pool expression references the `_schema_names` method without calling
it, so it is not modelled here. -/
theorem claim_C5_pg_suppression (nc kc : List Char → Int)
    (schema : Option (List Char)) (word : List Char)
    (pool : List (List Char)) :
    (optFalsy schema = true → startsWithPg word = false →
      (∀ m ∈ get_table_matches nc kc schema word pool,
        startsWithPg m.completion = false) ∧
      (∀ m ∈ get_view_matches nc kc schema word pool,
        startsWithPg m.completion = false) ∧
      (get_table_matches nc kc schema word pool).map MatchRec.completion
        = ((pool.filter fun i => !(startsWithPg i)).filter
            fun i => (matchStrict (processText word) i).isSome)) ∧
    (startsWithPg word = true →
      get_table_matches nc kc schema word pool
        = findMatchesStrict nc kc word pool (some ['t', 'a', 'b', 'l', 'e']) ∧
      get_view_matches nc kc schema word pool
        = findMatchesStrict nc kc word pool (some ['v', 'i', 'e', 'w'])) := by
  constructor
  · intro hsch hw
    have hcond : (optFalsy schema && !(startsWithPg word)) = true := by
      rw [hsch, hw]
      rfl
    refine ⟨?_, ?_, ?_⟩
    · intro m hm
      simp only [get_table_matches, hcond] at hm
      rw [if_pos trivial] at hm
      have hc := mem_strict_collection hm
      have hp := List.of_mem_filter hc
      simpa using hp
    · intro m hm
      simp only [get_view_matches, hcond] at hm
      rw [if_pos trivial] at hm
      have hc := mem_strict_collection hm
      have hp := List.of_mem_filter hc
      simpa using hp
    · simp only [get_table_matches, hcond]
      rw [if_pos trivial, findMatchesStrict, find_matches_completions, List.map_map]
      have hid : (Prod.fst ∘ fun i : List Char => (i, some ['t', 'a', 'b', 'l', 'e']))
          = fun i : List Char => i := rfl
      rw [hid, List.map_id']
      simp only [modeMatch_false]
  · intro hw
    have hcond : (optFalsy schema && !(startsWithPg word)) = false := by
      rw [hw]
      exact Bool.and_false _
    constructor
    · simp only [get_table_matches, hcond]
      rw [if_neg Bool.false_ne_true]
    · simp only [get_view_matches, hcond]
      rw [if_neg Bool.false_ne_true]

theorem claim_C5_pg_suppression_witness :
    (get_table_matches (fun _ => 0) (fun _ => 0) none ['x']
        [['p', 'g', '_', 'a'], ['x', 'b']]).map MatchRec.completion
      = ((([['p', 'g', '_', 'a'], ['x', 'b']].filter
            fun i => !(startsWithPg i)).filter
          fun i => (matchStrict (processText ['x']) i).isSome)) :=
  ((claim_C5_pg_suppression (fun _ => 0) (fun _ => 0) none ['x']
      [['p', 'g', '_', 'a'], ['x', 'b']]).1 (by decide) (by decide)).2.2

/-- C5 counterexample: for the Datatype kind with no schema filter and a
partial text (here empty) that does not start with `pg_`, a candidate
starting with `pg_` is *not* excluded: it is returned. -/
theorem claim_C5_counterexample :
    (get_datatype_matches (fun _ => 0) (fun _ => 0) none []
        [['p', 'g', '_', 't']]).map MatchRec.completion
      = [['p', 'g', '_', 't']] := by decide

/-! ## Escaping invariance (claim C6) -/

theorem lowerChar_quote : lowerChar '"' = '"' := by decide

theorem lowerChar_eq_quote {x : Char} (h : lowerChar x = '"') : x = '"' := by
  by_cases hx : 65 ≤ x.toNat ∧ x.toNat ≤ 90
  · rw [lowerChar, if_pos hx] at h
    have h2 := congrArg Char.toNat h
    rw [toNat_ofNat_of_lt (by omega)] at h2
    have h34 : ('"' : Char).toNat = 34 := by decide
    omega
  · rwa [lowerChar, if_neg hx] at h

theorem unescape_lowerStr {c : List Char}
    (h : ¬(c.head? = some '"' ∧ c.getLast? = some '"')) :
    unescape_name (lowerStr c) = lowerStr c := by
  rw [unescape_name, if_neg]
  rintro ⟨h1, h2⟩
  rw [lowerStr, List.head?_map] at h1
  rw [lowerStr, List.getLast?_map] at h2
  refine h ⟨?_, ?_⟩
  · cases hc : c.head? with
    | none => rw [hc] at h1; cases h1
    | some x =>
      rw [hc, Option.map_some'] at h1
      injection h1 with h1'
      exact congrArg Option.some (lowerChar_eq_quote h1')
  · cases hc : c.getLast? with
    | none => rw [hc] at h2; cases h2
    | some x =>
      rw [hc, Option.map_some'] at h2
      injection h2 with h2'
      exact congrArg Option.some (lowerChar_eq_quote h2')

theorem lowerStr_quoted (c : List Char) :
    lowerStr ('"' :: c ++ ['"']) = '"' :: lowerStr c ++ ['"'] := by
  simp [lowerStr, lowerChar_quote]

theorem unescape_not_quoted {c : List Char}
    (h : ¬(c.head? = some '"' ∧ c.getLast? = some '"')) :
    unescape_name c = c := by
  rw [unescape_name, if_neg h]

/-- C6 (amended): in fuzzy mode the accept/reject decision and the
match-quality component of the ordering key — and also the lexical
tie-break component — are identical for a candidate and its double-quoted
form, because matching and the lexical key use the unescaped candidate.  In
strict mode this fails (see the counterexample), and the prevalence
component is looked up on the raw candidate string, so it is not covered. -/
theorem claim_C6_escaping_invariance (t c : List Char)
    (h : ¬(c.head? = some '"' ∧ c.getLast? = some '"')) :
    matchFuzzy t ('"' :: c ++ ['"']) = matchFuzzy t c ∧
    lexicalPriority ('"' :: c ++ ['"']) = lexicalPriority c := by
  constructor
  · rw [matchFuzzy, matchFuzzy, lowerStr_quoted, unescape_quoted,
      unescape_lowerStr h]
  · rw [lexicalPriority, lexicalPriority, unescape_quoted, unescape_not_quoted h]

theorem claim_C6_escaping_invariance_witness :
    matchFuzzy ['f'] ('"' :: ['f', 'o', 'o'] ++ ['"']) =
      matchFuzzy ['f'] ['f', 'o', 'o'] :=
  (claim_C6_escaping_invariance ['f'] ['f', 'o', 'o'] (by decide)).1

/-- C6 counterexample: in strict mode the accept/reject decision is *not*
invariant under quoting — `foo` is accepted for text `foo` but `"foo"` is
rejected, because strict mode matches on the raw lower-cased candidate. -/
theorem claim_C6_counterexample :
    matchStrict ['f', 'o', 'o'] ['f', 'o', 'o'] = some (ExtInt.negInf, 0) ∧
    matchStrict ['f', 'o', 'o'] ['"', 'f', 'o', 'o', '"'] = none := by decide

/-! ## Ordering-key distinctness (claim C7) -/

theorem lexicalPriority_inj {a b : List Char}
    (h : lexicalPriority a = lexicalPriority b) :
    unescape_name a = unescape_name b := by
  rw [lexicalPriority, lexicalPriority] at h
  have h2 := List.append_cancel_right h
  have hinj : Function.Injective (fun ch : Char => -(ch.toNat : Int)) := by
    intro x y hxy
    simp only at hxy
    exact char_toNat_inj (by omega)
  exact List.map_injective_iff.mpr hinj h2

/-- C7 (amended): two matches from one `find_matches` call whose completions
have distinct *unescaped* forms always receive distinct full priority keys,
because the per-character lexical component determines the unescaped text;
for candidates that differ only by quoting the keys can coincide (see the
counterexample). -/
theorem claim_C7_key_distinctness {fuzzy : Bool} {nc kc : List Char → Int}
    {raw : List Char} {pairs : List (List Char × Option (List Char))}
    {m1 m2 : MatchRec} (h1 : m1 ∈ find_matches fuzzy nc kc raw pairs)
    (h2 : m2 ∈ find_matches fuzzy nc kc raw pairs)
    (hne : unescape_name m1.completion ≠ unescape_name m2.completion) :
    m1.priority ≠ m2.priority := by
  intro he
  have l1 := (mem_find_matches h1).2.2.2
  have l2 := (mem_find_matches h2).2.2.2
  exact hne (lexicalPriority_inj (by rw [← l1, ← l2, he]))

theorem claim_C7_key_distinctness_witness :
    (⟨['a'], none, ⟨(ExtInt.negInf, 0), 0, [-97, 1]⟩⟩ : MatchRec).priority ≠
      (⟨['b'], none, ⟨(ExtInt.negInf, 0), 0, [-98, 1]⟩⟩ : MatchRec).priority :=
  @claim_C7_key_distinctness false (fun _ => 0) (fun _ => 0) []
    [(['a'], none), (['b'], none)]
    ⟨['a'], none, ⟨(ExtInt.negInf, 0), 0, [-97, 1]⟩⟩
    ⟨['b'], none, ⟨(ExtInt.negInf, 0), 0, [-98, 1]⟩⟩
    (by decide) (by decide) (by decide)

/-- C7 counterexample: the distinct candidates `foo` and `"foo"` both match
the empty partial text in one strict-mode pool and are assigned *equal* full
ordering keys (equal match quality, equal zero prevalence, and a lexical
component computed from the same unescaped text), so distinct candidates can
compare equal. -/
theorem claim_C7_counterexample :
    find_matches false (fun _ => 0) (fun _ => 0) []
        [(['f', 'o', 'o'], none), (['"', 'f', 'o', 'o', '"'], none)] =
      [⟨['f', 'o', 'o'], none,
          ⟨(ExtInt.negInf, 0), 0, [-102, -111, -111, 1]⟩⟩,
       ⟨['"', 'f', 'o', 'o', '"'], none,
          ⟨(ExtInt.negInf, 0), 0, [-102, -111, -111, 1]⟩⟩] ∧
    (['f', 'o', 'o'] : List Char) ≠ ['"', 'f', 'o', 'o', '"'] := by decide

/-! ## Unique-column filter (claim C8) -/

theorem mem_firstOccur_aux (l : List (List Char)) :
    ∀ (acc : List (List Char)) (x : List Char),
      x ∈ l.foldl (fun acc x => if x ∈ acc then acc else acc ++ [x]) acc ↔
        x ∈ acc ∨ x ∈ l := by
  induction l with
  | nil =>
    intro acc x
    simp
  | cons y ys ih =>
    intro acc x
    rw [List.foldl_cons, ih]
    by_cases hy : y ∈ acc
    · rw [if_pos hy]
      constructor
      · rintro (h | h)
        · exact Or.inl h
        · exact Or.inr (List.mem_cons_of_mem _ h)
      · rintro (h | h)
        · exact Or.inl h
        · rcases List.mem_cons.mp h with rfl | h'
          · exact Or.inl hy
          · exact Or.inr h'
    · rw [if_neg hy]
      constructor
      · rintro (h | h)
        · rcases List.mem_append.mp h with h' | h'
          · exact Or.inl h'
          · exact Or.inr (List.mem_cons.mpr (Or.inl (List.mem_singleton.mp h')))
        · exact Or.inr (List.mem_cons_of_mem _ h)
      · rintro (h | h)
        · exact Or.inl (List.mem_append.mpr (Or.inl h))
        · rcases List.mem_cons.mp h with rfl | h'
          · exact Or.inl (List.mem_append.mpr (Or.inr (List.mem_singleton.mpr rfl)))
          · exact Or.inr h'

theorem mem_firstOccur_iff {l : List (List Char)} {x : List Char} :
    x ∈ firstOccur l ↔ x ∈ l := by
  rw [firstOccur, mem_firstOccur_aux]
  simp

/-- C8: with the unique-only (`drop_unique`) flag set, after gathering the
columns of all listed tables the kept candidate pool consists of exactly the
column names that occur more than once across the gathered pool and are not
the wildcard `*`; in particular for tables with columns `{id, name}` and
`{id, email}` the pool is exactly `[id]`. -/
theorem claim_C8_unique_columns :
    (∀ (pool : List (List Char)) (x : List Char),
      x ∈ uniqueColumnFilter pool ↔ (pool.count x > 1 ∧ x ≠ ['*'])) ∧
    uniqueColumnFilter (populate_scoped_cols
        [[['i', 'd'], ['n', 'a', 'm', 'e']],
         [['i', 'd'], ['e', 'm', 'a', 'i', 'l']]]) = [['i', 'd']] := by
  refine ⟨?_, by decide⟩
  intro pool x
  rw [uniqueColumnFilter, List.mem_filter]
  constructor
  · rintro ⟨_, hp⟩
    rw [Bool.and_eq_true] at hp
    exact ⟨by simpa using hp.1, by simpa using hp.2⟩
  · rintro ⟨hc, hne⟩
    refine ⟨?_, ?_⟩
    · rw [mem_firstOccur_iff]
      exact List.count_pos_iff.mp (by omega)
    · rw [Bool.and_eq_true]
      exact ⟨by simpa using hc, by simpa using hne⟩

end AutoComplete
